import Mathlib

/-!
Verification development for the Net GEX computation engine
(`services/net_gex.py` of streamlit-net-gex).

Embedding conventions.

* Python floats are modelled by exact numbers: the arithmetic-only parts of
  the pipeline (timestamps, open interest, strikes, implied volatilities,
  weights) live in `ℚ`, which keeps them executable and decidable; the
  Black–Scholes gamma evaluator and every quantity downstream of it
  (`gamma_avg`, `k`, `NetGEX`) live in `ℝ` because the formula uses
  `exp`, `log` and `sqrt`.
* An optional / possibly missing field of an input dict is an `Option ℚ`;
  `none` covers both an absent key and a value on which Python `float(...)`
  would fail (the code turns such IV values into `None` via try/except).
* The two exceptions the code can actually raise on the way to a result —
  the `ValueError` guarding the timestamps inside `time_to_expiry`, and the
  `TypeError` from `float(None)` when a row has no strike — are modelled by
  `Except CalcError` on the top-level wrapper `calculate_net_gexE`; the
  remaining pipeline `calculate_net_gex` is total, mirroring the fact that
  after those two checks the Python code cannot raise (`ℚ`-division is total
  where Python would raise `ZeroDivisionError` for `scale_divisor = 0`, so
  theorems about normal returns carry a `scale_divisor ≠ 0` style hypothesis
  where that matters).
* Python dict mutation (`row["iv_used"] = iv_median` performed on the dicts
  shared between `core` and `enriched`) is modelled by indexing: rows are
  enumerated, the ATM core remembers the indices of the rows it holds, and
  the in-place imputation is a map over `enriched` that rewrites exactly the
  rows whose index belongs to the core (`imputeInPlace`).
* Python `sorted` is a stable ascending sort by key; it is modelled by
  `List.insertionSort` with the reflexive key order, which is stable in the
  same way (earlier elements are inserted in front of later elements with an
  equal key).
* `round(x, 1)` is modelled as `round (10 * x) / 10`; the tie-breaking
  policy of `round` is irrelevant to every claim below because the same
  rounding function appears on both sides.
-/

namespace NetGex

/-- `_in_seconds` (minus its `None` guard, which lives in the wrapper):
values that look like milliseconds (`> 1e12`) are divided by 1000. -/
def in_seconds (x : ℚ) : ℚ :=
  if x > 10 ^ 12 then x / 1000 else x

/-- `time_to_expiry` on present timestamps: returns `(T_years, T_days)`,
clamping negative differences to zero and flooring `T_years` at `1e-6`. -/
def time_to_expiry (snapshot_ts expiry_ts : ℚ) : ℚ × ℚ :=
  let t0 := in_seconds snapshot_ts
  let te := in_seconds expiry_ts
  let seconds := max (te - t0) 0
  (max (seconds / 31536000) (1 / 1000000), seconds / 86400)

/-- `_normalize_iv`: `none` for missing/unparsable input (the try/except),
`none` for sentinel values `≤ 1e-4`, percent-to-fraction division by 100 for
values `> 3.0`, then clamping to `[0.01, 3.0]`. -/
def normalize_iv (x : Option ℚ) : Option ℚ :=
  match x with
  | none => none
  | some v =>
    if v ≤ 1 / 10000 then none
    else
      let v := if v > 3 then v / 100 else v
      some (max (min v 3) (1 / 100))

/-- `_choose_iv`: mean of the valid side IVs when at least one side
normalizes, else the normalized aggregated provider IV.  (The Python code
builds the list `cand` of valid side IVs and returns `sum(cand)/len(cand)`;
the mean of one element is that element, of two is their half-sum.) -/
def choose_iv (call_iv put_iv agg_iv : Option ℚ) : Option ℚ :=
  let c := normalize_iv call_iv
  let p := normalize_iv put_iv
  let a := normalize_iv agg_iv
  match c, p with
  | some cv, some pv => some ((cv + pv) / 2)
  | some cv, none => some cv
  | none, some pv => some pv
  | none, none => a

/-- `_phi`, the standard normal density. -/
noncomputable def phi (x : ℝ) : ℝ :=
  Real.exp (-0.5 * x * x) / Real.sqrt (2 * Real.pi)

/-- `_gamma_bs`: Black–Scholes gamma, `0.0` on any non-positive input.
(The try/except of the source is vacuous here: `Real.log` and `Real.sqrt`
are total.) -/
noncomputable def gamma_bs (S K sigma T r : ℝ) : ℝ :=
  if sigma ≤ 0 ∨ T ≤ 0 ∨ S ≤ 0 ∨ K ≤ 0 then 0
  else
    phi ((Real.log (S / K) + (r + 0.5 * sigma * sigma) * T) / (sigma * Real.sqrt T))
      / (S * sigma * Real.sqrt T)

/-- An input row of `calculate_net_gex` as the code reads it: every field is
fetched with `.get`, so every field may be absent. -/
structure RawRow where
  strike : Option ℚ
  call_OI : Option ℚ
  put_OI : Option ℚ
  call_iv : Option ℚ
  put_iv : Option ℚ
  iv : Option ℚ
deriving DecidableEq

/-- An input row whose `strike` survived `float(r.get("strike"))` — the only
row field whose absence makes the code raise. -/
structure Row where
  strike : ℚ
  call_OI : Option ℚ
  put_OI : Option ℚ
  call_iv : Option ℚ
  put_iv : Option ℚ
  iv : Option ℚ
deriving DecidableEq

/-- An enriched row, as appended to `enriched` in the first loop. -/
structure ERow where
  strike : ℚ
  call_OI : ℚ
  put_OI : ℚ
  dOI : ℚ
  call_iv : Option ℚ
  put_iv : Option ℚ
  iv_provider : Option ℚ
  iv_used : Option ℚ
deriving DecidableEq

/-- An output row, as appended to `out_rows` in the final loop; `iv_used`
is no longer optional there. -/
structure ORow where
  strike : ℚ
  call_OI : ℚ
  put_OI : ℚ
  dOI : ℚ
  iv_used : ℚ
  NetGEX : ℝ

/-- The `metrics` dict of the result. -/
structure Metrics where
  S : ℚ
  T_years : ℚ
  T_days : ℚ
  iv_median_core : ℚ
  gamma_avg : ℝ
  k_raw : ℝ
  k : ℝ
  M : ℚ
  scale_divisor : ℚ
  core_K : ℕ
  core_strikes : List ℚ

/-- The `NetGexResult` dataclass. -/
structure NetGexResult where
  rows : List ORow
  k : ℝ
  metrics : Metrics

/-- Body of the first loop of `calculate_net_gex`: missing open interest
defaults to 0, `dOI = call_OI - put_OI`, `iv_used = _choose_iv(...)`. -/
def enrich (r : Row) : ERow :=
  let call_OI := r.call_OI.getD 0
  let put_OI := r.put_OI.getD 0
  { strike := r.strike
    call_OI := call_OI
    put_OI := put_OI
    dOI := call_OI - put_OI
    call_iv := r.call_iv
    put_iv := r.put_iv
    iv_provider := r.iv
    iv_used := choose_iv r.call_iv r.put_iv r.iv }

/-- `sorted(iv_candidates)[len(iv_candidates) // 2]`, or the conservative
fallback `0.20` when no strike resolved an IV. -/
def ivMedian (cand : List ℚ) : ℚ :=
  if cand = [] then 1 / 5
  else (List.insertionSort (fun a b : ℚ => a ≤ b) cand).getD (cand.length / 2) 0

/-- The median taken over the `iv_used` values collected in input order. -/
def ivMedianOf (enriched : List ERow) : ℚ :=
  ivMedian (enriched.filterMap ERow.iv_used)

/-- Key order of `sorted(enriched, key=lambda x: abs(x["strike"] - S))`,
lifted to enumerated rows so that the identity of each Python dict is
retained as its index. -/
def distLe (S : ℚ) (a b : ℕ × ERow) : Prop :=
  |a.2.strike - S| ≤ |b.2.strike - S|

instance (S : ℚ) : DecidableRel (distLe S) := fun a b =>
  (inferInstance : Decidable (|a.2.strike - S| ≤ |b.2.strike - S|))

/-- `core = sorted(enriched, key=...)[: max(core_K, 1)]`, keeping indices. -/
def coreSelect (S : ℚ) (core_K : ℕ) (enriched : List ERow) : List (ℕ × ERow) :=
  (List.insertionSort (distLe S) enriched.enum).take (max core_K 1)

/-- The in-place mutation `if row["iv_used"] is None: row["iv_used"] = iv_median`
applied to one row. -/
def imputeRow (ivMed : ℚ) (row : ERow) : ERow :=
  if row.iv_used = none then { row with iv_used := some ivMed } else row

/-- The ATM core as the code sees it during the gamma loop: the selected
rows after the in-place imputation. -/
def coreOf (S : ℚ) (core_K : ℕ) (enriched : List ERow) : List ERow :=
  (coreSelect S core_K enriched).map (fun p => imputeRow (ivMedianOf enriched) p.2)

/-- Because the core dicts are the same objects as the enriched dicts, the
mutation is also visible in `enriched`: exactly the rows whose index was
selected into the core are rewritten. -/
def imputeInPlace (ivMed : ℚ) (coreIdxs : List ℕ) (enriched : List ERow) : List ERow :=
  enriched.enum.map (fun p => if p.1 ∈ coreIdxs then imputeRow ivMed p.2 else p.2)

/-- `enriched` as it stands when the output-composition loop begins. -/
def rowsAtCompose (S : ℚ) (core_K : ℕ) (rows : List Row) : List ERow :=
  let enriched := rows.map enrich
  imputeInPlace (ivMedianOf enriched) ((coreSelect S core_K enriched).map Prod.fst) enriched

/-- `w = row["call_OI"] + row["put_OI"] + 1.0`. -/
def weight (row : ERow) : ℚ :=
  row.call_OI + row.put_OI + 1

/-- `sigma = float(row["iv_used"])`: at the only call site the row has been
imputed, so `iv_used` is always `some`; the default is unreachable. -/
def sigmaOf (row : ERow) : ℚ :=
  row.iv_used.getD 0

/-- The weighted-gamma-average loop:
`gamma_avg = (g_sum / w_sum) if w_sum > 0 else 0.0`. -/
noncomputable def gammaAvgOf (S T_years : ℚ) (core : List ERow) : ℝ :=
  let w_sum : ℚ := (core.map weight).sum
  let g_sum : ℝ :=
    (core.map (fun row =>
      ((weight row : ℚ) : ℝ)
        * gamma_bs (S : ℝ) (row.strike : ℝ) ((sigmaOf row : ℚ) : ℝ) (T_years : ℝ) 0)).sum
  if 0 < w_sum then g_sum / ((w_sum : ℚ) : ℝ) else 0

/-- The optional regression refinement: a weighted least-squares fit of
`k_raw * dOI` against `dOI`, keeping `k_raw` when the denominator vanishes. -/
noncomputable def refineK (use_regression_refine : Bool) (k_raw : ℝ)
    (enriched : List ERow) : ℝ :=
  if use_regression_refine then
    let num : ℝ := (enriched.map (fun row => (row.dOI : ℝ) * (k_raw * (row.dOI : ℝ)))).sum
    let den : ℚ := (enriched.map (fun row => row.dOI * row.dOI)).sum
    if 0 < den then num / ((den : ℚ) : ℝ) else k_raw
  else k_raw

/-- `round(net_gex, 1)`. -/
noncomputable def round1 (x : ℝ) : ℝ :=
  ((round (10 * x) : ℤ) : ℝ) / 10

/-- Key order of the output sort `sorted(enriched, key=lambda x: x["strike"])`. -/
def strikeLe (a b : ERow) : Prop :=
  a.strike ≤ b.strike

instance : DecidableRel strikeLe := fun a b =>
  (inferInstance : Decidable (a.strike ≤ b.strike))

instance : IsTotal ERow strikeLe :=
  ⟨fun a b => le_total a.strike b.strike⟩

instance : IsTrans ERow strikeLe :=
  ⟨fun _ _ _ hab hbc => le_trans hab hbc⟩

/-- The output-composition loop: sort ascending by strike, substitute the
median for a still-missing `iv_used`, and set `NetGEX = round(k * dOI, 1)`. -/
noncomputable def composeRows (k : ℝ) (ivMed : ℚ) (enriched : List ERow) : List ORow :=
  (List.insertionSort strikeLe enriched).map (fun row =>
    { strike := row.strike
      call_OI := row.call_OI
      put_OI := row.put_OI
      dOI := row.dOI
      iv_used := row.iv_used.getD ivMed
      NetGEX := round1 (k * (row.dOI : ℝ)) })

/-- `calculate_net_gex` on inputs that survive its two possible exceptions:
present timestamps and rows with parsable strikes (see `calculate_net_gexE`
for those guards). -/
noncomputable def calculate_net_gex (S : ℚ) (rows : List Row)
    (expiry_ts snapshot_ts : ℚ) (M scale_divisor : ℚ) (core_K : ℕ)
    (use_regression_refine : Bool) : NetGexResult :=
  let T := time_to_expiry snapshot_ts expiry_ts
  let enriched := rows.map enrich
  let iv_median := ivMedianOf enriched
  let coreSel := coreSelect S core_K enriched
  let core := coreSel.map (fun p => imputeRow iv_median p.2)
  let gamma_avg := gammaAvgOf S T.1 core
  let k_raw : ℝ := gamma_avg * (S : ℝ) * (M : ℝ) / (scale_divisor : ℝ)
  let k := refineK use_regression_refine k_raw enriched
  let enriched2 := imputeInPlace iv_median (coreSel.map Prod.fst) enriched
  { rows := composeRows k iv_median enriched2
    k := k
    metrics :=
      { S := S
        T_years := T.1
        T_days := T.2
        iv_median_core := iv_median
        gamma_avg := gamma_avg
        k_raw := k_raw
        k := k
        M := M
        scale_divisor := scale_divisor
        core_K := core_K
        core_strikes := core.map ERow.strike } }

/-- The two exceptions the entry point can raise: the `ValueError` from
`time_to_expiry` on a missing timestamp, and the `TypeError` from
`float(None)` on a row without a strike. -/
inductive CalcError where
  | invalidInput
  | typeError
deriving DecidableEq

/-- The per-row `float(r.get("strike"))` parse of the first loop, which
raises at the first row lacking a strike. -/
def parseRows : List RawRow → Option (List Row)
  | [] => some []
  | r :: rs =>
    match r.strike, parseRows rs with
    | some s, some tl =>
      some ({ strike := s, call_OI := r.call_OI, put_OI := r.put_OI,
              call_iv := r.call_iv, put_iv := r.put_iv, iv := r.iv } :: tl)
    | _, _ => none

/-- `calculate_net_gex` with its exception behaviour: the timestamp guard
fires first (inside `time_to_expiry`), then the per-row strike parses. -/
noncomputable def calculate_net_gexE (S : ℚ) (rows : List RawRow)
    (expiry_ts snapshot_ts : Option ℚ) (M scale_divisor : ℚ) (core_K : ℕ)
    (use_regression_refine : Bool) : Except CalcError NetGexResult :=
  match snapshot_ts, expiry_ts with
  | some t0, some te =>
    match parseRows rows with
    | some rs =>
      .ok (calculate_net_gex S rs te t0 M scale_divisor core_K use_regression_refine)
    | none => .error .typeError
  | _, _ => .error .invalidInput

/-! Spec-side definitions, written from the specification text rather than
from the source, for the refinement claims. -/

/-- Spec wording for `clamp(v, lo, hi)` (the code writes `max(min(v, hi), lo)`). -/
def clamp (v lo hi : ℚ) : ℚ :=
  max (min v hi) lo

/-- Spec wording of the ATM-core order: strikes compared by `|strike − S|`,
ties broken by the rows' prior order — made precise as the lexicographic
order on (distance, original position). -/
def specDistLe (S : ℚ) (a b : ℕ × ERow) : Prop :=
  |a.2.strike - S| < |b.2.strike - S| ∨
    (|a.2.strike - S| = |b.2.strike - S| ∧ a.1 ≤ b.1)

instance (S : ℚ) : DecidableRel (specDistLe S) := fun a b =>
  (inferInstance : Decidable (|a.2.strike - S| < |b.2.strike - S| ∨
    (|a.2.strike - S| = |b.2.strike - S| ∧ a.1 ≤ b.1)))

/-- Spec wording of step 3 of the calibrator: the `core_size` rows with
smallest `|strike − S|`, ties broken stably by prior order (all rows when
fewer than `core_size` exist). -/
def coreSpec (S : ℚ) (core_size : ℕ) (enriched : List ERow) : List ERow :=
  ((List.insertionSort (specDistLe S) enriched.enum).take core_size).map Prod.snd

/-- Spec wording of steps 4–5 of the calibrator:
`gamma_avg = Σ(weight_i · gamma_i) / Σ(weight_i)`, or `0.0` if the weights
sum to zero, with `weight_i = call_OI + put_OI + 1` and `gamma_i` the
Black–Scholes gamma at `(S, strike_i, T_years, iv_used_i)` (where a missing
`iv_used` was imputed with the median). -/
noncomputable def gammaAvgSpec (S T_years ivMed : ℚ) (core : List ERow) : ℝ :=
  let wsum : ℚ := (core.map weight).sum
  if wsum = 0 then 0
  else
    (core.map (fun row =>
      ((weight row : ℚ) : ℝ)
        * gamma_bs (S : ℝ) (row.strike : ℝ) ((row.iv_used.getD ivMed : ℚ) : ℝ)
            (T_years : ℝ) 0)).sum / ((wsum : ℚ) : ℝ)

/-- Spec wording of step 6: `k = gamma_avg · S · M / D`. -/
noncomputable def kSpec (S T_years ivMed : ℚ) (core : List ERow) (M D : ℚ) : ℝ :=
  gammaAvgSpec S T_years ivMed core * (S : ℝ) * (M : ℝ) / (D : ℝ)

end NetGex

namespace NetGex

/-! Helper lemmas. -/

theorem imputeRow_strike (m : ℚ) (r : ERow) : (imputeRow m r).strike = r.strike := by
  unfold imputeRow; split <;> rfl

theorem imputeRow_call_OI (m : ℚ) (r : ERow) : (imputeRow m r).call_OI = r.call_OI := by
  unfold imputeRow; split <;> rfl

theorem imputeRow_put_OI (m : ℚ) (r : ERow) : (imputeRow m r).put_OI = r.put_OI := by
  unfold imputeRow; split <;> rfl

theorem imputeRow_dOI (m : ℚ) (r : ERow) : (imputeRow m r).dOI = r.dOI := by
  unfold imputeRow; split <;> rfl

theorem weight_imputeRow (m : ℚ) (r : ERow) : weight (imputeRow m r) = weight r := by
  unfold weight; rw [imputeRow_call_OI, imputeRow_put_OI]

theorem sigmaOf_imputeRow (m : ℚ) (r : ERow) :
    sigmaOf (imputeRow m r) = r.iv_used.getD m := by
  unfold imputeRow sigmaOf
  rcases h : r.iv_used with _ | v <;> simp [h]

theorem getD_iv_imputeRow (m : ℚ) (r : ERow) :
    (imputeRow m r).iv_used.getD m = r.iv_used.getD m := by
  unfold imputeRow
  rcases h : r.iv_used with _ | v <;> simp [h]

theorem normalize_iv_bounds {x : Option ℚ} {w : ℚ} (h : normalize_iv x = some w) :
    1 / 100 ≤ w ∧ w ≤ 3 := by
  rcases x with _ | v
  · simp [normalize_iv] at h
  · simp only [normalize_iv] at h
    by_cases hs : v ≤ 1 / 10000
    · rw [if_pos hs] at h; exact absurd h (by simp)
    · rw [if_neg hs, Option.some.injEq] at h
      refine ⟨h ▸ le_max_right _ _, h ▸ max_le (min_le_right _ _) (by norm_num)⟩

theorem choose_iv_bounds {c p a : Option ℚ} {v : ℚ} (h : choose_iv c p a = some v) :
    1 / 100 ≤ v ∧ v ≤ 3 := by
  unfold choose_iv at h
  rcases hc : normalize_iv c with _ | cv <;> rcases hp : normalize_iv p with _ | pv <;>
    rw [hc, hp] at h
  · exact normalize_iv_bounds h
  · rw [Option.some.injEq] at h
    exact h ▸ normalize_iv_bounds hp
  · rw [Option.some.injEq] at h
    exact h ▸ normalize_iv_bounds hc
  · rw [Option.some.injEq] at h
    obtain ⟨hc1, hc2⟩ := normalize_iv_bounds hc
    obtain ⟨hp1, hp2⟩ := normalize_iv_bounds hp
    constructor
    · rw [← h]; linarith
    · rw [← h]; linarith

/-! Claim theorems. -/

/-- Claim C2: for positive `S, K, σ, T` the gamma evaluator returns
`φ(d1) / (S·σ·√T)` with `d1 = (ln(S/K) + 0.5·σ²·T) / (σ·√T)`, a value `≥ 0`
(finiteness is rendered by the value being a real number); on any
non-positive input it returns `0.0` (and, being total, never raises). -/
theorem C2_gamma_engine (S K sigma T : ℝ) :
    (0 < S → 0 < K → 0 < sigma → 0 < T →
      gamma_bs S K sigma T 0
          = phi ((Real.log (S / K) + 0.5 * sigma * sigma * T) / (sigma * Real.sqrt T))
              / (S * sigma * Real.sqrt T)
        ∧ 0 ≤ gamma_bs S K sigma T 0)
    ∧ ((S ≤ 0 ∨ K ≤ 0 ∨ sigma ≤ 0 ∨ T ≤ 0) → gamma_bs S K sigma T 0 = 0) := by
  constructor
  · intro hS hK hs hT
    have hcond : ¬(sigma ≤ 0 ∨ T ≤ 0 ∨ S ≤ 0 ∨ K ≤ 0) := by
      push_neg
      exact ⟨hs, hT, hS, hK⟩
    rw [gamma_bs, if_neg hcond]
    constructor
    · have harg : (0 + 0.5 * sigma * sigma) * T = 0.5 * sigma * sigma * T := by ring
      rw [harg]
    · apply div_nonneg
      · unfold phi
        exact div_nonneg (Real.exp_pos _).le (Real.sqrt_nonneg _)
      · exact mul_nonneg (mul_nonneg hS.le hs.le) (Real.sqrt_nonneg _)
  · intro h
    rw [gamma_bs, if_pos (by tauto)]

/-- Witness for C2 at `(S, K, σ, T) = (1, 1, 1, 1)` and the degenerate
input `S = 0`. -/
theorem C2_gamma_engine_witness :
    (gamma_bs 1 1 1 1 0
        = phi ((Real.log (1 / 1) + 0.5 * 1 * 1 * 1) / (1 * Real.sqrt 1))
            / (1 * 1 * Real.sqrt 1)
      ∧ 0 ≤ gamma_bs 1 1 1 1 0)
    ∧ gamma_bs 0 1 1 1 0 = 0 :=
  ⟨(C2_gamma_engine 1 1 1 1).1 (by norm_num) (by norm_num) (by norm_num) (by norm_num),
   (C2_gamma_engine 0 1 1 1).2 (Or.inl (by norm_num))⟩

/-- Claim C3: IV normalization is pure and total (total by construction in
this embedding, with `none` covering missing/unparsable input), returns
`none` for sentinel values `≤ 1e-4`, `clamp(v, 0.01, 3.0)` for
`1e-4 < v ≤ 3.0`, `clamp(v/100, 0.01, 3.0)` for `v > 3.0`, and every
non-`none` result lies in `[0.01, 3.0]`. -/
theorem C3_normalize_iv_total :
    normalize_iv none = none
    ∧ (∀ v : ℚ, v ≤ 1 / 10000 → normalize_iv (some v) = none)
    ∧ (∀ v : ℚ, 1 / 10000 < v → v ≤ 3 →
        normalize_iv (some v) = some (clamp v (1 / 100) 3))
    ∧ (∀ v : ℚ, 3 < v → normalize_iv (some v) = some (clamp (v / 100) (1 / 100) 3))
    ∧ (∀ (x : Option ℚ) (w : ℚ), normalize_iv x = some w → 1 / 100 ≤ w ∧ w ≤ 3) := by
  refine ⟨rfl, ?_, ?_, ?_, fun x w h => normalize_iv_bounds h⟩
  · intro v hv
    simp only [normalize_iv]
    rw [if_pos hv]
  · intro v h1 h2
    simp only [normalize_iv]
    rw [if_neg (not_le.mpr h1), if_neg (not_lt.mpr h2)]
    rfl
  · intro v h3
    simp only [normalize_iv]
    rw [if_neg (not_le.mpr (by linarith)), if_pos h3]
    rfl

/-- Witness for C3 at the sentinel `5e-5`, the fraction `1/2`, and the
percent-style value `25`. -/
theorem C3_normalize_iv_total_witness :
    normalize_iv (some (1 / 20000)) = none
    ∧ normalize_iv (some (1 / 2)) = some (clamp (1 / 2) (1 / 100) 3)
    ∧ normalize_iv (some 25) = some (clamp (25 / 100) (1 / 100) 3)
    ∧ (1 / 100 ≤ (1 / 4 : ℚ) ∧ (1 / 4 : ℚ) ≤ 3) :=
  ⟨C3_normalize_iv_total.2.1 (1 / 20000) (by norm_num),
   C3_normalize_iv_total.2.2.1 (1 / 2) (by norm_num) (by norm_num),
   C3_normalize_iv_total.2.2.2.1 25 (by norm_num),
   C3_normalize_iv_total.2.2.2.2 (some 25) (1 / 4) (by norm_num [normalize_iv, clamp])⟩

/-- Claim C6 is false on the code: `time_to_expiry` applies no 20-hour
shift to expiries on a UTC-midnight boundary.  At `snapshot = 8643600`,
`expiry = 8726400` (a multiple of 86400), the code returns
`T_days = 82800/86400 = 23/24`, not the shifted `(82800 + 72000)/86400`. -/
theorem C6_midnight_counterexample :
    (8726400 : ℤ) % 86400 = 0
    ∧ time_to_expiry 8643600 8726400 = (23 / 8760, 23 / 24)
    ∧ (23 / 24 : ℚ) ≠ max (8726400 + 72000 - 8643600) 0 / 86400 := by
  refine ⟨by norm_num, by norm_num [time_to_expiry, in_seconds], ?_⟩
  norm_num

/-- Claim C6 amended: no midnight-boundary shift is applied; even when the
expiry timestamp is an exact multiple of 86400 (and both timestamps are in
the seconds range, so unit conversion is the identity), the code computes
`seconds = max(expiry_ts − snapshot_ts, 0)` directly. -/
theorem C6_midnight_amended (t0 te : ℚ) (_hmid : ∃ n : ℤ, te = 86400 * n)
    (h0 : t0 ≤ 10 ^ 12) (h1 : te ≤ 10 ^ 12) :
    (time_to_expiry t0 te).2 = max (te - t0) 0 / 86400 := by
  have e0 : in_seconds t0 = t0 := by rw [in_seconds, if_neg (not_lt.mpr h0)]
  have e1 : in_seconds te = te := by rw [in_seconds, if_neg (not_lt.mpr h1)]
  simp [time_to_expiry, e0, e1]

/-- Witness for the amended C6 at the midnight expiry `8726400 = 86400·101`. -/
theorem C6_midnight_amended_witness :
    (time_to_expiry 8643600 8726400).2 = max (8726400 - 8643600 : ℚ) 0 / 86400 :=
  C6_midnight_amended 8643600 8726400 ⟨101, by norm_num⟩ (by norm_num) (by norm_num)

/-- Claim C7 is false on the code: with both side IVs missing and a
provider aggregate IV present, `_choose_iv` returns the normalized
aggregate, not `None`. -/
theorem C7_choose_iv_counterexample :
    choose_iv none none (some (1 / 2)) ≠ none
    ∧ choose_iv none none (some (1 / 2)) = some (1 / 2) := by
  have h : choose_iv none none (some (1 / 2)) = some (1 / 2) := by
    norm_num [choose_iv, normalize_iv]
  exact ⟨by rw [h]; exact Option.some_ne_none _, h⟩

/-- Claim C7 amended: `iv_used` is the mean of whichever of the normalized
call/put IVs are non-`none`; when both are `none` it falls back to the
normalized aggregate provider IV (`iv` field), and only when that too is
`none` is the row left unresolved; any resolved value lies in
`[0.01, 3.0]` (in particular it is never zero). -/
theorem C7_choose_iv_amended (c p a : Option ℚ) :
    (∀ row : Row, (enrich row).iv_used = choose_iv row.call_iv row.put_iv row.iv)
    ∧ (∀ cv pv, normalize_iv c = some cv → normalize_iv p = some pv →
        choose_iv c p a = some ((cv + pv) / 2))
    ∧ (∀ cv, normalize_iv c = some cv → normalize_iv p = none →
        choose_iv c p a = some cv)
    ∧ (∀ pv, normalize_iv c = none → normalize_iv p = some pv →
        choose_iv c p a = some pv)
    ∧ (normalize_iv c = none → normalize_iv p = none →
        choose_iv c p a = normalize_iv a)
    ∧ (∀ v, choose_iv c p a = some v → 1 / 100 ≤ v ∧ v ≤ 3) := by
  refine ⟨fun row => rfl, ?_, ?_, ?_, ?_, fun v h => choose_iv_bounds h⟩
  · intro cv pv hc hp
    unfold choose_iv
    rw [hc, hp]
  · intro cv hc hp
    unfold choose_iv
    rw [hc, hp]
  · intro pv hc hp
    unfold choose_iv
    rw [hc, hp]
  · intro hc hp
    unfold choose_iv
    rw [hc, hp]

/-- Witness for the amended C7 on concrete side/aggregate IV combinations. -/
theorem C7_choose_iv_amended_witness :
    choose_iv (some (1 / 4)) (some (1 / 2)) none = some ((1 / 4 + 1 / 2) / 2)
    ∧ choose_iv (some (1 / 4)) none none = some (1 / 4)
    ∧ choose_iv none (some (1 / 2)) none = some (1 / 2)
    ∧ choose_iv none none (some (1 / 2)) = normalize_iv (some (1 / 2))
    ∧ (1 / 100 ≤ (3 / 8 : ℚ) ∧ (3 / 8 : ℚ) ≤ 3) :=
  ⟨(C7_choose_iv_amended (some (1 / 4)) (some (1 / 2)) none).2.1 (1 / 4) (1 / 2)
      (by norm_num [normalize_iv]) (by norm_num [normalize_iv]),
   (C7_choose_iv_amended (some (1 / 4)) none none).2.2.1 (1 / 4)
      (by norm_num [normalize_iv]) rfl,
   (C7_choose_iv_amended none (some (1 / 2)) none).2.2.2.1 (1 / 2) rfl
      (by norm_num [normalize_iv]),
   (C7_choose_iv_amended none none (some (1 / 2))).2.2.2.2.1 rfl rfl,
   (C7_choose_iv_amended (some (1 / 4)) (some (1 / 2)) none).2.2.2.2.2 (3 / 8)
      (by norm_num [choose_iv, normalize_iv])⟩

end NetGex

namespace NetGex

/-! Helpers for the refinement, error and imputation claims. -/

theorem refine_num_eq (kr : ℝ) (l : List ERow) :
    (l.map (fun row => (row.dOI : ℝ) * (kr * (row.dOI : ℝ)))).sum
      = kr * (((l.map (fun row => row.dOI * row.dOI)).sum : ℚ) : ℝ) := by
  induction l with
  | nil => simp
  | cons r t ih =>
    simp only [List.map_cons, List.sum_cons, ih]
    push_cast
    ring

theorem refineK_eq (b : Bool) (kr : ℝ) (l : List ERow) : refineK b kr l = kr := by
  cases b with
  | false => rfl
  | true =>
    simp only [refineK, if_true]
    by_cases hd : 0 < (l.map (fun row => row.dOI * row.dOI)).sum
    · rw [if_pos hd, refine_num_eq]
      have hne : (((l.map (fun row => row.dOI * row.dOI)).sum : ℚ) : ℝ) ≠ 0 :=
        Rat.cast_ne_zero.mpr (ne_of_gt hd)
      rw [mul_div_assoc, div_self hne, mul_one]
    · rw [if_neg hd]

theorem snd_mem_of_mem_enumFrom {α : Type} :
    ∀ {n : ℕ} {l : List α} {p : ℕ × α}, p ∈ List.enumFrom n l → p.2 ∈ l := by
  intro n l
  induction l generalizing n with
  | nil => intro p h; simp [List.enumFrom] at h
  | cons x xs ih =>
    intro p h
    rcases List.mem_cons.mp h with h | h
    · rw [h]
      exact List.mem_cons_self _ _
    · exact List.mem_cons_of_mem _ (ih h)

theorem snd_mem_of_mem_enum {α : Type} {l : List α} {p : ℕ × α} (h : p ∈ l.enum) :
    p.2 ∈ l :=
  snd_mem_of_mem_enumFrom h

theorem map_map_enumFrom_ite {β : Type} (g : ERow → β) (m : ℚ) (idxs : List ℕ)
    (hg : ∀ r, g (imputeRow m r) = g r) :
    ∀ (n : ℕ) (l : List ERow),
      ((List.enumFrom n l).map
          (fun p => if p.1 ∈ idxs then imputeRow m p.2 else p.2)).map g
        = l.map g := by
  intro n l
  induction l generalizing n with
  | nil => rfl
  | cons x xs ih =>
    simp only [List.enumFrom, List.map_cons, List.map, ih]
    by_cases h : n ∈ idxs
    · rw [if_pos h, hg]
    · rw [if_neg h]

theorem map_imputeInPlace {β : Type} (g : ERow → β) (m : ℚ) (idxs : List ℕ)
    (l : List ERow) (hg : ∀ r, g (imputeRow m r) = g r) :
    (imputeInPlace m idxs l).map g = l.map g :=
  map_map_enumFrom_ite g m idxs hg 0 l

theorem mem_imputeInPlace {m : ℚ} {idxs : List ℕ} {l : List ERow} {r : ERow}
    (h : r ∈ imputeInPlace m idxs l) :
    ∃ e ∈ l, r = e ∨ r = imputeRow m e := by
  unfold imputeInPlace at h
  obtain ⟨p, hp, hr⟩ := List.mem_map.mp h
  refine ⟨p.2, snd_mem_of_mem_enum hp, ?_⟩
  by_cases hi : p.1 ∈ idxs
  · right
    rw [← hr, if_pos hi]
  · left
    rw [← hr, if_neg hi]

theorem parseRows_of_strikes {rows : List RawRow} (h : ∀ r ∈ rows, r.strike ≠ none) :
    ∃ l, parseRows rows = some l := by
  induction rows with
  | nil => exact ⟨[], rfl⟩
  | cons r rs ih =>
    obtain ⟨l, hl⟩ := ih (fun x hx => h x (List.mem_cons_of_mem _ hx))
    obtain ⟨s, hs⟩ :=
      Option.ne_none_iff_exists.mp (h r (List.mem_cons_self _ _))
    refine ⟨⟨s, r.call_OI, r.put_OI, r.call_iv, r.put_iv, r.iv⟩ :: l, ?_⟩
    rw [parseRows, ← hs, hl]

/-- Claim C9: the optional regression refinement is an identity — the
weighted least-squares numerator is `k_raw` times its denominator, so the
returned `k` always equals `k_raw` regardless of the flag. -/
theorem C9_refine_identity (S t0 te M D : ℚ) (rows : List Row) (cK : ℕ) (b : Bool) :
    (calculate_net_gex S rows te t0 M D cK b).k
      = (calculate_net_gex S rows te t0 M D cK b).metrics.k_raw :=
  refineK_eq b _ _

/-- Claim C5 is false on the code: with both timestamps present, a row
whose `strike` is missing makes `calculate_net_gex` raise a `TypeError`
(from `float(None)`) instead of returning normally. -/
theorem C5_error_counterexample :
    calculate_net_gexE 100
      [{ strike := none, call_OI := some 1, put_OI := some 1,
         call_iv := none, put_iv := none, iv := none }]
      (some 1000000) (some 900000) 100 1000 11 false = .error .typeError := rfl

/-- Claim C5 amended: the entry point raises `InvalidInput` (the
`ValueError`) exactly when a timestamp is missing; *given rows that all
carry a parsable strike* (a documented requirement of the function) and a
nonzero scale divisor, every other degeneracy (non-positive strike,
unresolved IV, zero open interest, zero time to expiry) is absorbed and the
call returns normally. -/
theorem C5_error_amended (S : ℚ) (rows : List RawRow)
    (expiry_ts snapshot_ts : Option ℚ) (M D : ℚ) (cK : ℕ) (b : Bool) :
    ((snapshot_ts = none ∨ expiry_ts = none) →
      calculate_net_gexE S rows expiry_ts snapshot_ts M D cK b = .error .invalidInput)
    ∧ (snapshot_ts ≠ none → expiry_ts ≠ none → (∀ r ∈ rows, r.strike ≠ none) →
        D ≠ 0 →
        (calculate_net_gexE S rows expiry_ts snapshot_ts M D cK b).isOk = true)
    ∧ (∀ e, calculate_net_gexE S rows expiry_ts snapshot_ts M D cK b = .error e →
        (e = .invalidInput ↔ (snapshot_ts = none ∨ expiry_ts = none))) := by
  rcases snapshot_ts with _ | t0
  · refine ⟨fun _ => rfl, fun hc _ _ _ => absurd rfl hc, fun e he => ?_⟩
    unfold calculate_net_gexE at he
    rcases expiry_ts with _ | te <;>
      · rw [Except.error.injEq] at he
        simp [← he]
  · rcases expiry_ts with _ | te
    · refine ⟨fun _ => rfl, fun _ hc _ _ => absurd rfl hc, fun e he => ?_⟩
      unfold calculate_net_gexE at he
      rw [Except.error.injEq] at he
      simp [← he]
    · refine ⟨fun h => ?_, fun _ _ hstr _ => ?_, fun e he => ?_⟩
      · rcases h with h | h <;> exact absurd h (by simp)
      · obtain ⟨l, hl⟩ := parseRows_of_strikes hstr
        unfold calculate_net_gexE
        rw [hl]
        rfl
      · unfold calculate_net_gexE at he
        rcases hp : parseRows rows with _ | l <;> rw [hp] at he
        · rw [Except.error.injEq] at he
          constructor
          · intro h
            rw [← he] at h
            exact absurd h (by simp)
          · intro h
            rcases h with h | h <;> exact absurd h (by simp)
        · exact absurd he (by simp)

/-- Witness for the amended C5: a missing snapshot timestamp yields
`InvalidInput`; a well-formed input returns normally. -/
theorem C5_error_amended_witness :
    calculate_net_gexE 100 [] (some 1000000) none 100 1000 11 false
        = .error .invalidInput
    ∧ (calculate_net_gexE 100
        [{ strike := some 100, call_OI := some 1, put_OI := some 1,
           call_iv := none, put_iv := none, iv := none }]
        (some 1000000) (some 900000) 100 1000 11 false).isOk = true :=
  ⟨(C5_error_amended 100 [] (some 1000000) none 100 1000 11 false).1 (Or.inl rfl),
   (C5_error_amended 100
      [{ strike := some 100, call_OI := some 1, put_OI := some 1,
         call_iv := none, put_iv := none, iv := none }]
      (some 1000000) (some 900000) 100 1000 11 false).2.1
      (by simp) (by simp) (by simp) (by norm_num)⟩

/-- Claim C8 is false on the code: the median imputation for the ATM core
is performed on the *shared* row dicts, not on a copy.  On a single-row
input whose IV is unresolved, the row has `iv_used = None` after
enrichment, but `iv_used = 0.20` (the fallback median) when output
composition begins. -/
theorem C8_impute_counterexample :
    (([{ strike := 100, call_OI := some 1, put_OI := some 1,
         call_iv := none, put_iv := none, iv := none }].map enrich).map ERow.iv_used
      = [none])
    ∧ ((rowsAtCompose 100 11
        [{ strike := 100, call_OI := some 1, put_OI := some 1,
           call_iv := none, put_iv := none, iv := none }]).map ERow.iv_used
      = [some (1 / 5)]) := by
  constructor
  · norm_num [enrich, choose_iv, normalize_iv]
  · norm_num [rowsAtCompose, imputeInPlace, coreSelect, ivMedianOf, ivMedian,
      enrich, choose_iv, normalize_iv, imputeRow, distLe]

/-- Claim C8 amended: the in-place imputation overwrites `iv_used` on the
core rows (so provenance is lost, as the counterexample shows), but it is
value-preserving for everything the rest of the pipeline reads: strikes,
open interest and `dOI` are untouched, and the `iv_used` value substituted
at output composition (`iv_used` if present else the median) is the same
as it would have been on an unmutated copy. -/
theorem C8_impute_amended (ivMed : ℚ) (idxs : List ℕ) (enriched : List ERow) :
    (imputeInPlace ivMed idxs enriched).map (fun r => r.iv_used.getD ivMed)
        = enriched.map (fun r => r.iv_used.getD ivMed)
    ∧ (imputeInPlace ivMed idxs enriched).map ERow.strike = enriched.map ERow.strike
    ∧ (imputeInPlace ivMed idxs enriched).map ERow.call_OI
        = enriched.map ERow.call_OI
    ∧ (imputeInPlace ivMed idxs enriched).map ERow.put_OI
        = enriched.map ERow.put_OI
    ∧ (imputeInPlace ivMed idxs enriched).map ERow.dOI = enriched.map ERow.dOI :=
  ⟨map_imputeInPlace _ ivMed idxs enriched (fun r => getD_iv_imputeRow ivMed r),
   map_imputeInPlace _ ivMed idxs enriched (fun r => imputeRow_strike ivMed r),
   map_imputeInPlace _ ivMed idxs enriched (fun r => imputeRow_call_OI ivMed r),
   map_imputeInPlace _ ivMed idxs enriched (fun r => imputeRow_put_OI ivMed r),
   map_imputeInPlace _ ivMed idxs enriched (fun r => imputeRow_dOI ivMed r)⟩

end NetGex

namespace NetGex

/-! Helpers for the composition and invariant claims. -/

theorem mem_of_mem_insertionSort {α : Type} {r : α → α → Prop} [DecidableRel r]
    {l : List α} {x : α} (h : x ∈ List.insertionSort r l) : x ∈ l :=
  (List.perm_insertionSort r l).mem_iff.mp h

theorem enrich_iv_bounds {rows : List Row} {e : ERow} (he : e ∈ rows.map enrich)
    {v : ℚ} (hv : e.iv_used = some v) : 1 / 100 ≤ v ∧ v ≤ 3 := by
  obtain ⟨row, _, rfl⟩ := List.mem_map.mp he
  exact choose_iv_bounds hv

theorem ivMedian_bounds {cand : List ℚ} (h : ∀ v ∈ cand, 1 / 100 ≤ v ∧ v ≤ 3) :
    1 / 100 ≤ ivMedian cand ∧ ivMedian cand ≤ 3 := by
  unfold ivMedian
  by_cases hc : cand = []
  · rw [if_pos hc]
    norm_num
  · rw [if_neg hc]
    set scand := List.insertionSort (fun a b : ℚ => a ≤ b) cand with hs
    have hlen : cand.length / 2 < scand.length := by
      rw [hs, List.length_insertionSort]
      exact Nat.div_lt_self (List.length_pos.mpr hc) one_lt_two
    have hmem : scand.getD (cand.length / 2) 0 ∈ scand := by
      simp only [List.getD_eq_getElem?_getD, List.getElem?_eq_getElem hlen,
        Option.getD_some]
      exact List.getElem_mem hlen
    exact h _ ((List.perm_insertionSort _ cand).mem_iff.mp (hs ▸ hmem))

theorem candidates_bounds {rows : List Row} :
    ∀ v ∈ (rows.map enrich).filterMap ERow.iv_used, 1 / 100 ≤ v ∧ v ≤ 3 := by
  intro v hv
  obtain ⟨e, he, hev⟩ := List.mem_filterMap.mp hv
  exact enrich_iv_bounds he hev

theorem ivMedianOf_enrich_bounds (rows : List Row) :
    1 / 100 ≤ ivMedianOf (rows.map enrich) ∧ ivMedianOf (rows.map enrich) ≤ 3 :=
  ivMedian_bounds candidates_bounds

/-- Claim C4: the composed output table is sorted ascending by strike, every
output row's `NetGEX` is `round(k · dOI, 1)` for the returned `k`, and each
row's `dOI` is its `call_OI − put_OI`. -/
theorem C4_compose_rows (S t0 te M D : ℚ) (rows : List Row) (cK : ℕ) (b : Bool) :
    List.Sorted (fun x y : ORow => x.strike ≤ y.strike)
        (calculate_net_gex S rows te t0 M D cK b).rows
    ∧ (calculate_net_gex S rows te t0 M D cK b).rows.map ORow.NetGEX
        = (calculate_net_gex S rows te t0 M D cK b).rows.map
            (fun row => round1 ((calculate_net_gex S rows te t0 M D cK b).k * (row.dOI : ℝ)))
    ∧ (calculate_net_gex S rows te t0 M D cK b).rows.map ORow.dOI
        = (calculate_net_gex S rows te t0 M D cK b).rows.map
            (fun row => row.call_OI - row.put_OI) := by
  have hrows : (calculate_net_gex S rows te t0 M D cK b).rows
      = composeRows (calculate_net_gex S rows te t0 M D cK b).k
          (ivMedianOf (rows.map enrich))
          (imputeInPlace (ivMedianOf (rows.map enrich))
            ((coreSelect S cK (rows.map enrich)).map Prod.fst) (rows.map enrich)) := rfl
  refine ⟨?_, ?_, ?_⟩
  · rw [hrows]
    unfold composeRows
    exact List.Pairwise.map _ (fun a b h => h)
      (List.sorted_insertionSort strikeLe _)
  · rw [hrows]
    unfold composeRows
    rw [List.map_map, List.map_map]
    rfl
  · rw [hrows]
    unfold composeRows
    rw [List.map_map, List.map_map]
    apply List.map_congr_left
    intro r hr
    have hr2 := mem_of_mem_insertionSort hr
    obtain ⟨e, he, heq⟩ := mem_imputeInPlace hr2
    obtain ⟨row, _, rfl⟩ := List.mem_map.mp he
    show r.dOI = r.call_OI - r.put_OI
    rcases heq with rfl | rfl
    · rfl
    · rw [imputeRow_dOI, imputeRow_call_OI, imputeRow_put_OI]
      rfl

/-- Claim C10 (implicit invariant): every output row's `iv_used` is a
concrete rational in `[0.01, 3.0]` (it is never `none` — the output row type
has a plain `ℚ` there, matching the unconditional substitution in the code):
resolved IVs are clamped by normalization, and unresolved rows receive the
median, which is itself a clamped candidate or the `0.20` fallback. -/
theorem C10_iv_used_bounds (S t0 te M D : ℚ) (rows : List Row) (cK : ℕ) (b : Bool) :
    ((calculate_net_gex S rows te t0 M D cK b).rows.all
      (fun row => decide (1 / 100 ≤ row.iv_used ∧ row.iv_used ≤ 3))) = true := by
  rw [List.all_eq_true]
  intro or hor
  rw [decide_eq_true_eq]
  have hrows : (calculate_net_gex S rows te t0 M D cK b).rows
      = composeRows (calculate_net_gex S rows te t0 M D cK b).k
          (ivMedianOf (rows.map enrich))
          (imputeInPlace (ivMedianOf (rows.map enrich))
            ((coreSelect S cK (rows.map enrich)).map Prod.fst) (rows.map enrich)) := rfl
  rw [hrows] at hor
  unfold composeRows at hor
  obtain ⟨r, hr, rfl⟩ := List.mem_map.mp hor
  show 1 / 100 ≤ r.iv_used.getD (ivMedianOf (rows.map enrich))
    ∧ r.iv_used.getD (ivMedianOf (rows.map enrich)) ≤ 3
  have hmed := ivMedianOf_enrich_bounds rows
  have hr2 := mem_of_mem_insertionSort hr
  obtain ⟨e, he, heq⟩ := mem_imputeInPlace hr2
  rcases heq with rfl | rfl
  · rcases hiv : r.iv_used with _ | v
    · simpa [hiv] using hmed
    · simpa [hiv] using enrich_iv_bounds he hiv
  · rw [getD_iv_imputeRow]
    rcases hiv : e.iv_used with _ | v
    · simpa [hiv] using hmed
    · simpa [hiv] using enrich_iv_bounds he hiv

end NetGex

namespace NetGex

/-! Helpers for the calibration claim: the stable sort on enumerated rows
agrees with the lexicographic (distance, original position) order, because
the enumeration indices strictly increase. -/

theorem le_fst_of_mem_enumFrom {α : Type} :
    ∀ {n : ℕ} {l : List α} {p : ℕ × α}, p ∈ List.enumFrom n l → n ≤ p.1 := by
  intro n l
  induction l generalizing n with
  | nil => intro p h; simp [List.enumFrom] at h
  | cons x xs ih =>
    intro p h
    rcases List.mem_cons.mp h with h | h
    · simp [h]
    · exact le_trans (Nat.le_succ n) (ih h)

theorem pairwise_fst_lt_enumFrom {α : Type} :
    ∀ (n : ℕ) (l : List α), (List.enumFrom n l).Pairwise (fun a b => a.1 < b.1) := by
  intro n l
  induction l generalizing n with
  | nil => exact List.Pairwise.nil
  | cons x xs ih =>
    refine List.Pairwise.cons ?_ (ih (n + 1))
    intro b hb
    exact lt_of_lt_of_le (Nat.lt_succ_self n) (le_fst_of_mem_enumFrom hb)

theorem orderedInsert_congr {α : Type} {r1 r2 : α → α → Prop}
    [DecidableRel r1] [DecidableRel r2] (a : α) :
    ∀ l : List α, (∀ x ∈ l, r1 a x ↔ r2 a x) →
      List.orderedInsert r1 a l = List.orderedInsert r2 a l := by
  intro l
  induction l with
  | nil => intro _; rfl
  | cons x xs ih =>
    intro h
    simp only [List.orderedInsert]
    by_cases h1 : r1 a x
    · rw [if_pos h1, if_pos ((h x (List.mem_cons_self _ _)).mp h1)]
    · rw [if_neg h1,
        if_neg (fun h2 => h1 ((h x (List.mem_cons_self _ _)).mpr h2)),
        ih (fun y hy => h y (List.mem_cons_of_mem _ hy))]

theorem insertionSort_stable_lex (S : ℚ) :
    ∀ l : List (ℕ × ERow), l.Pairwise (fun a b => a.1 < b.1) →
      List.insertionSort (distLe S) l = List.insertionSort (specDistLe S) l := by
  intro l
  induction l with
  | nil => intro _; rfl
  | cons a t ih =>
    intro hp
    obtain ⟨ha, ht⟩ := List.pairwise_cons.mp hp
    simp only [List.insertionSort]
    rw [ih ht]
    apply orderedInsert_congr
    intro x hx
    have hax : a.1 < x.1 := ha x (mem_of_mem_insertionSort hx)
    unfold distLe specDistLe
    constructor
    · intro hle
      rcases lt_or_eq_of_le hle with h | h
      · exact Or.inl h
      · exact Or.inr ⟨h, le_of_lt hax⟩
    · rintro (h | ⟨h, _⟩)
      · exact le_of_lt h
      · exact le_of_eq h

theorem enum_pairwise_fst_lt {α : Type} (l : List α) :
    l.enum.Pairwise (fun a b => a.1 < b.1) :=
  pairwise_fst_lt_enumFrom 0 l

theorem coreOf_eq_spec (S : ℚ) (cK : ℕ) (hK : 1 ≤ cK) (enriched : List ERow) :
    coreOf S cK enriched
      = (coreSpec S cK enriched).map (imputeRow (ivMedianOf enriched)) := by
  unfold coreOf coreSelect coreSpec
  rw [insertionSort_stable_lex S enriched.enum (enum_pairwise_fst_lt enriched),
    max_eq_left hK, List.map_map]
  rfl

theorem mem_coreSpec {S : ℚ} {cK : ℕ} {enriched : List ERow} {e : ERow}
    (h : e ∈ coreSpec S cK enriched) : e ∈ enriched := by
  unfold coreSpec at h
  obtain ⟨p, hp, rfl⟩ := List.mem_map.mp h
  exact snd_mem_of_mem_enum (mem_of_mem_insertionSort (List.take_subset _ _ hp))

theorem gammaAvg_code_eq_spec (S T : ℚ) (cK : ℕ) (enriched : List ERow)
    (hK : 1 ≤ cK)
    (hOI : ∀ e ∈ enriched, 0 ≤ e.call_OI ∧ 0 ≤ e.put_OI) :
    gammaAvgOf S T (coreOf S cK enriched)
      = gammaAvgSpec S T (ivMedianOf enriched) (coreSpec S cK enriched) := by
  rw [coreOf_eq_spec S cK hK]
  simp only [gammaAvgOf, gammaAvgSpec, List.map_map]
  have hw : (coreSpec S cK enriched).map (weight ∘ imputeRow (ivMedianOf enriched))
      = (coreSpec S cK enriched).map weight :=
    List.map_congr_left (fun e _ => weight_imputeRow _ e)
  have hg : (coreSpec S cK enriched).map
        ((fun row => ((weight row : ℚ) : ℝ)
            * gamma_bs (S : ℝ) (row.strike : ℝ) ((sigmaOf row : ℚ) : ℝ) (T : ℝ) 0)
          ∘ imputeRow (ivMedianOf enriched))
      = (coreSpec S cK enriched).map
          (fun row => ((weight row : ℚ) : ℝ)
            * gamma_bs (S : ℝ) (row.strike : ℝ)
                ((row.iv_used.getD (ivMedianOf enriched) : ℚ) : ℝ) (T : ℝ) 0) := by
    apply List.map_congr_left
    intro e _
    simp only [Function.comp]
    rw [weight_imputeRow, imputeRow_strike, sigmaOf_imputeRow]
  rw [hw, hg]
  have hnn : 0 ≤ ((coreSpec S cK enriched).map weight).sum := by
    apply List.sum_nonneg
    intro w hw2
    obtain ⟨e, he, rfl⟩ := List.mem_map.mp hw2
    obtain ⟨h1, h2⟩ := hOI e (mem_coreSpec he)
    unfold weight
    linarith
  rcases eq_or_lt_of_le hnn with h0 | h0
  · rw [if_neg (by rw [← h0]; exact lt_irrefl 0), if_pos h0.symm]
  · rw [if_pos h0, if_neg (ne_of_gt h0)]

/-- Claim C1: for every input with valid timestamps (and a positive core
size, with the open-interest fields nonnegative as the data model demands),
the returned `k` equals `gamma_avg · S · M / scale_divisor`, where
`gamma_avg` is the spec-side weighted average `Σ(wᵢ·γᵢ)/Σ(wᵢ)` (`0.0` when
the weights sum to zero) over the spec-side ATM core: the `core_size` rows
of smallest `|strike − S|`, ties broken by prior order (all rows when fewer
exist), with `wᵢ = call_OI + put_OI + 1` and `γᵢ` the Black–Scholes gamma at
`(S, strikeᵢ, T_years, iv_usedᵢ)`. -/
theorem C1_calibration_k (S t0 te M D : ℚ) (rows : List Row) (cK : ℕ) (b : Bool)
    (hK : 1 ≤ cK)
    (hOI : ∀ r ∈ rows, 0 ≤ r.call_OI.getD 0 ∧ 0 ≤ r.put_OI.getD 0) :
    (calculate_net_gex S rows te t0 M D cK b).k
      = kSpec S (time_to_expiry t0 te).1 (ivMedianOf (rows.map enrich))
          (coreSpec S cK (rows.map enrich)) M D := by
  have hk : (calculate_net_gex S rows te t0 M D cK b).k
      = refineK b
          (gammaAvgOf S (time_to_expiry t0 te).1 (coreOf S cK (rows.map enrich))
            * (S : ℝ) * (M : ℝ) / (D : ℝ))
          (rows.map enrich) := rfl
  have hOI2 : ∀ e ∈ rows.map enrich, 0 ≤ e.call_OI ∧ 0 ≤ e.put_OI := by
    intro e he
    obtain ⟨r, hr, rfl⟩ := List.mem_map.mp he
    exact hOI r hr
  rw [hk, refineK_eq]
  unfold kSpec
  rw [gammaAvg_code_eq_spec S (time_to_expiry t0 te).1 cK (rows.map enrich) hK hOI2]

/-- Witness for C1 on a one-row chain with resolved IV. -/
theorem C1_calibration_k_witness :
    ((1 : ℕ) ≤ 11)
    ∧ (calculate_net_gex 100 [⟨100, some 10, some 5, some (1 / 4), none, none⟩]
          1000000 900000 100 1000 11 false).k
        = kSpec 100 (time_to_expiry 900000 1000000).1
            (ivMedianOf ([⟨100, some 10, some 5, some (1 / 4), none, none⟩].map enrich))
            (coreSpec 100 11
              ([(⟨100, some 10, some 5, some (1 / 4), none, none⟩ : Row)].map enrich))
            100 1000 :=
  ⟨by norm_num,
   C1_calibration_k 100 900000 1000000 100 1000
      [⟨100, some 10, some 5, some (1 / 4), none, none⟩] 11 false (by norm_num)
      (by
        intro r hr
        simp only [List.mem_singleton] at hr
        subst hr
        exact ⟨by norm_num, by norm_num⟩)⟩

end NetGex
